import Mathlib

/-!
Shallow embedding of the LVM LAN-video-meeting application and proofs about
its discovery, relay, negotiation-coordination and channel-crypto subsystems.

Each definition is translated from one identified place in the JavaScript
source; the theorems at the end of the file settle the frozen specification
claims C1 through C10 against these definitions.

Conventions used throughout the embedding:
* JavaScript strings are Lean `String`s (compared with the same
  lexicographic order that `<` uses on JS strings).
* A JavaScript `Map` is an insertion-ordered association list
  `List (String × α)`; `jsSet` reproduces `Map.prototype.set` (update in
  place when the key exists, append otherwise) and deletion is `filter`.
* Byte sequences (`Uint8Array`, binary strings) are `List Nat` with every
  element `< 256` where it matters.
* Asynchronous handlers are step functions on explicit state; a sequence of
  delivered events is a `List` folded over the step function.
-/

namespace LVM

/-- `Map.prototype.set` on an insertion-ordered association list: if the key
is present its value is replaced in place, otherwise the pair is appended. -/
def jsSet {α : Type} (m : List (String × α)) (k : String) (v : α) : List (String × α) :=
  if m.any (fun p => p.1 = k) then
    m.map (fun p => if p.1 = k then (k, v) else p)
  else
    m ++ [(k, v)]

/-! ## Negotiation coordinator: deterministic offer election (renderer.js)

`renderer.js` wires four handlers with identical election logic (host
`onWelcome`/`onPeerJoined`, lines 284-325, and participant
`onWelcome`/`onPeerJoined`, lines 398-441): on learning of a peer the client
first checks `!rtc.hasPeer(id)` and then creates and sends an offer only when
`clientId < id`; otherwise it waits for the remote side to offer.
`rtc.createOfferTo` inserts the peer into the `WebRTCManager` map through
`_ensurePeer` at the same time the offer is created. -/

/-- The per-client negotiation state the election logic reads and writes:
the keys of the `WebRTCManager.peers` map and the log of peers to which
`createOfferTo` was invoked. -/
structure RtcPeers where
  peers : List String
  offered : List String
deriving DecidableEq, Repr

/-- `WebRTCManager.hasPeer` restricted to key membership. -/
def hasPeerId (s : RtcPeers) (id : String) : Bool :=
  s.peers.contains id

/-- Body shared by the four `onWelcome`/`onPeerJoined` handlers in
renderer.js: learning of `remoteId` creates (and records) an offer exactly
when no link exists and `localId < remoteId`; creating the offer also
registers the link via `_ensurePeer`. -/
def onLearnPeer (localId : String) (s : RtcPeers) (remoteId : String) : RtcPeers :=
  if hasPeerId s remoteId then s
  else if localId < remoteId then
    { peers := remoteId :: s.peers, offered := remoteId :: s.offered }
  else s

/-- Folding a sequence of learned-peer notifications (welcome participant
entries and peer-joined notices, in delivery order) through the handler. -/
def runLearn (localId : String) (s : RtcPeers) (events : List String) : RtcPeers :=
  events.foldl (onLearnPeer localId) s

/-! ## WebRTCManager peer map (webrtc.js)

`webrtc.js` keeps `peers : Map(peerId -> record)`. `handleOffer` calls
`_ensurePeer` (which creates a fresh record when none exists), then applies
the remote description and produces an answer; `handleAnswer` and
`handleIce` return early when no record exists; `removePeer` closes and
deletes the record. The `RTCPeerConnection` collaborator is modelled by the
descriptions and candidates the manager applies to it. -/

/-- The slice of an `RTCPeerConnection` the manager mutates. -/
structure PeerRec where
  remoteDesc : Option String
  localDesc : Option String
  candidates : List String
deriving DecidableEq, Repr

/-- A fresh record as `_createPeerConnection` makes it. -/
def freshPeerRec : PeerRec :=
  { remoteDesc := none, localDesc := none, candidates := [] }

/-- The `WebRTCManager.peers` map. -/
structure RtcManager where
  peers : List (String × PeerRec)
deriving DecidableEq, Repr

/-- `_ensurePeer`: return the existing record's map unchanged, or register a
fresh peer connection under `id`. -/
def ensurePeer (m : RtcManager) (id : String) : RtcManager :=
  match m.peers.lookup id with
  | some _ => m
  | none => { peers := m.peers ++ [(id, freshPeerRec)] }

/-- `handleOffer`: `_ensurePeer`, then `setRemoteDescription(sdp)`,
`createAnswer` and `setLocalDescription(answer)` on that peer's connection.
`answerFor` stands for the Media Engine's answer computation. -/
def handleOffer (answerFor : String → String) (m : RtcManager) (fromPeerId sdp : String) :
    RtcManager :=
  let m' := ensurePeer m fromPeerId
  { peers := m'.peers.map (fun p =>
      if p.1 = fromPeerId then
        (p.1, { p.2 with remoteDesc := some sdp, localDesc := some (answerFor sdp) })
      else p) }

/-- `handleAnswer`: drop the message when no record exists, otherwise apply
the remote description. -/
def handleAnswer (m : RtcManager) (fromPeerId sdp : String) : RtcManager :=
  match m.peers.lookup fromPeerId with
  | none => m
  | some _ =>
    { peers := m.peers.map (fun p =>
        if p.1 = fromPeerId then (p.1, { p.2 with remoteDesc := some sdp }) else p) }

/-- `handleIce`: drop the candidate when no record exists, otherwise apply it
(errors from `addIceCandidate` are swallowed by the `try/catch`). -/
def handleIce (m : RtcManager) (fromPeerId candidate : String) : RtcManager :=
  match m.peers.lookup fromPeerId with
  | none => m
  | some _ =>
    { peers := m.peers.map (fun p =>
        if p.1 = fromPeerId then (p.1, { p.2 with candidates := p.2.candidates ++ [candidate] }) else p) }

/-- `removePeer`: close the connection and delete the record. -/
def removePeer (m : RtcManager) (id : String) : RtcManager :=
  { peers := m.peers.filter (fun p => p.1 ≠ id) }

/-! ## Relay client (signaling.js)

`SignalingClient.connect` returns a promise whose `resolve` is called from
the `welcome` branch of `ws.onmessage`; `reject` is captured but never
called on any path. `ws.onerror` only logs; `ws.onclose` invokes the
`onClosed` handler. `SignalingClient.send` transmits only while
`ws.readyState === OPEN` and otherwise falls through without any effect. -/

/-- Settlement state of the promise returned by `connect`. -/
inductive PromiseState
  | pending
  | resolved
  | rejected
deriving DecidableEq, Repr

/-- Resolving an already-settled promise is a no-op. -/
def resolvePromise : PromiseState → PromiseState
  | PromiseState.pending => PromiseState.resolved
  | s => s

/-- Parsed relay-channel message tags as dispatched by `ws.onmessage`. -/
inductive SigMsg
  | welcome (participants : List String)
  | peerJoined (clientId : String)
  | peerLeft (clientId : String)
  | offer (source : String) (sdp : String)
  | answer (source : String) (sdp : String)
  | ice (source : String) (candidate : String)
  | endMeeting
  | untagged
deriving DecidableEq, Repr

/-- Events the WebSocket delivers to the handlers installed by `connect`.
`wsMessage none` is a frame whose JSON fails to parse. -/
inductive WsEvent
  | wsOpen
  | wsMessage (m : Option SigMsg)
  | wsError
  | wsClose
deriving DecidableEq, Repr

/-- Observable state of one `connect` invocation. -/
structure ConnectState where
  promise : PromiseState
  joinSent : Bool
  onWelcomeFired : Bool
  onClosedFired : Bool
deriving DecidableEq, Repr

/-- Initial state when `connect` is entered. -/
def connectInit : ConnectState :=
  { promise := PromiseState.pending, joinSent := false,
    onWelcomeFired := false, onClosedFired := false }

/-- One WebSocket event through the handlers `connect` installs:
`onopen` sends the join envelope; `onmessage` dispatches on the tag and the
`welcome` branch fires `onWelcome` and resolves the promise; `onerror` only
logs; `onclose` fires `onClosed`. No branch rejects the promise. -/
def connectStep (s : ConnectState) (e : WsEvent) : ConnectState :=
  match e with
  | WsEvent.wsOpen => { s with joinSent := true }
  | WsEvent.wsMessage m =>
    match m with
    | some (SigMsg.welcome _) =>
      { s with onWelcomeFired := true, promise := resolvePromise s.promise }
    | _ => s
  | WsEvent.wsError => s
  | WsEvent.wsClose => { s with onClosedFired := true }

/-- A whole delivery sequence through `connect`'s handlers. -/
def runConnect (events : List WsEvent) : ConnectState :=
  events.foldl connectStep connectInit

/-- Whether a delivery sequence contains a parsed `welcome` frame. -/
def hasWelcome (events : List WsEvent) : Bool :=
  events.any (fun e =>
    match e with
    | WsEvent.wsMessage (some (SigMsg.welcome _)) => true
    | _ => false)

/-- Whether a delivery sequence contains the close event. -/
def hasClose (events : List WsEvent) : Bool :=
  events.any (fun e =>
    match e with
    | WsEvent.wsClose => true
    | _ => false)

/-- `WebSocket.readyState` values. -/
inductive ReadyState
  | connecting
  | opened
  | closing
  | closed
deriving DecidableEq, Repr

/-- The state `SignalingClient.send` reads and writes: the socket reference
(`none` before `connect` assigns it), the messages actually handed to
`ws.send`, and nothing else — the client has no outgoing queue. -/
structure ClientState where
  ws : Option ReadyState
  wireOut : List SigMsg
deriving DecidableEq, Repr

/-- `SignalingClient.send`: transmit (after the optional encryption
transform `encView`) only when a socket exists and is OPEN; on every other
path fall through, leaving all state untouched and discarding the message.
`encView` stands for the encryption rewriting applied inside the open
branch when a `CryptoManager` is configured. -/
def clientSend (encView : SigMsg → SigMsg) (s : ClientState) (m : SigMsg) : ClientState :=
  match s.ws with
  | some ReadyState.opened => { s with wireOut := s.wireOut ++ [encView m] }
  | _ => s

/-! ## Relay server (electron/main.js, `startWsServer`)

The server keeps `clientIdToSocket` and `clientIdToInfo`, two maps that are
always updated with the same keys; they are modelled as one association
list `sessions : List (clientId × displayName)`. A `join` envelope sets
both maps, sends `welcome` (listing every entry except the joiner) to the
joining socket, then broadcasts `peer-joined` to every other socket. A
`leave` envelope (or socket close) deletes the session and broadcasts
`peer-left` to the remaining sockets. -/

/-- Messages the relay server emits, with their recipient. -/
inductive RelayMsg
  | welcome (rcpt : String) (participants : List (String × String))
  | peerJoined (rcpt clientId name : String)
  | peerLeft (rcpt clientId : String)
deriving DecidableEq, Repr

/-- Envelopes relevant to the membership table, in receipt order. -/
inductive REvent
  | join (clientId name : String)
  | leave (clientId : String)
deriving DecidableEq, Repr

/-- One envelope through the relay server's socket message handler,
returning the new session table and the messages sent (in send order). -/
def relayStep (s : List (String × String)) (e : REvent) :
    List (String × String) × List RelayMsg :=
  match e with
  | REvent.join c n =>
    let s' := jsSet s c n
    let parts := s'.filter (fun p => p.1 ≠ c)
    (s', RelayMsg.welcome c parts :: parts.map (fun p => RelayMsg.peerJoined p.1 c n))
  | REvent.leave c =>
    let s' := s.filter (fun p => p.1 ≠ c)
    (s', s'.map (fun p => RelayMsg.peerLeft p.1 c))

/-- A receipt-ordered sequence of envelopes through the relay server,
accumulating the log of all messages sent. -/
def relayRun (s : List (String × String)) : List REvent → List (String × String) × List RelayMsg
  | [] => (s, [])
  | e :: rest =>
    let step := relayStep s e
    let tail := relayRun step.1 rest
    (tail.1, step.2 ++ tail.2)

/-- The client ids of the join envelopes of a trace. -/
def joinIds : List REvent → List String
  | [] => []
  | REvent.join c _ :: rest => c :: joinIds rest
  | REvent.leave _ :: rest => joinIds rest

/-- Within one log of relay sends: no recipient `y` is sent `peer-joined`
for a client that `y`'s own `welcome` already listed. -/
def NoStaleJoinNotice (log : List RelayMsg) : Prop :=
  ∀ y parts x nx n, RelayMsg.welcome y parts ∈ log → (x, nx) ∈ parts →
    RelayMsg.peerJoined y x n ∉ log

/-- Claim C3's consequence clause as stated, over every trace from a fresh
relay server. -/
def relayConsequenceProp : Prop :=
  ∀ tr : List REvent, NoStaleJoinNotice (relayRun [] tr).2

/-! ## Discovery directory: TTL sweep and change detection

`startDiscovery` in electron/main.js installs `pruneInterval` (every
1000 ms): entries of `roomMap` whose `now - lastSeen` exceeds 6000 ms are
deleted and `sendRoomsUpdate()` runs only when at least one entry was
deleted; part_006 applies the identical rule to `peerMap`. On the renderer
side `DiscoveryController._updateRooms` rebuilds the map from the received
list and reports `changed` only when the size differs or some entry
differs structurally (`JSON.stringify` comparison); `_emit` runs only when
`changed` is true. -/

/-- The broadcast-interval and sweep constants of electron/main.js, in
milliseconds. -/
def ANNOUNCE_INTERVAL_MS : Nat := 2000

/-- Sweep timer period (`pruneInterval`). -/
def PRUNE_INTERVAL_MS : Nat := 1000

/-- Age bound used by the sweep (`now - rec.lastSeen > 6000`). -/
def PRUNE_TTL_MS : Nat := 6000

/-- An `announce` datagram's payload. -/
structure Announce where
  roomId : String
  roomName : String
  hostIp : String
  wsPort : Nat
  participants : Nat
  ts : Nat
deriving DecidableEq, Repr

/-- One firing of the sweep timer over a directory of
`(key, (data, lastSeen))` entries: delete every entry older than the TTL
and report whether anything was deleted (the condition for notifying
observers). -/
def pruneStep {α : Type} (m : List (String × α × Nat)) (now : Nat) :
    List (String × α × Nat) × Bool :=
  (m.filter (fun p => ¬ now - p.2.2 > PRUNE_TTL_MS),
   m.any (fun p => now - p.2.2 > PRUNE_TTL_MS))

/-- The renderer's `_updateRooms` map rebuild: `next.set(r.roomId, r)` over
the received list, starting from an empty map. -/
def buildRooms (l : List Announce) : List (String × Announce) :=
  l.foldl (fun acc r => jsSet acc r.roomId r) []

/-- The renderer's `_updateRooms` change detection between the previous map
`cur` and the rebuilt map `next`: changed when the sizes differ, or when
some entry of `next` is absent from `cur` or differs structurally. -/
def updateRoomsChanged (cur next : List (String × Announce)) : Bool :=
  if next.length ≠ cur.length then true
  else next.any (fun p => ¬ cur.lookup p.1 = some p.2)

/-! ## Discovery announce handlers (self-announcement filtering)

Two revisions of the `announce` branch of `startDiscovery` exist:
electron/main.js lines 92-105 (and the identical first revision in
part_006) drop a datagram whose `roomId` equals the hosted room's id
before touching `roomMap`; the final revision (part_006 lines 784-790)
inserts every announce unconditionally, with the comment "Host can also
see their own room in the list". -/

/-- The host-side fields the announce branch reads. -/
structure HostInfo where
  roomId : String
  roomName : String
  hostIp : String
  wsPort : Nat
deriving DecidableEq, Repr

/-- Discovery state owned by the main process. -/
structure DiscoveryState where
  isHosting : Bool
  hostInfo : Option HostInfo
  roomMap : List (String × Announce × Nat)
deriving DecidableEq, Repr

/-- Whether the guard `isHosting && hostInfo && data.roomId === hostInfo.roomId`
holds. -/
def isOwnAnnounce (s : DiscoveryState) (d : Announce) : Bool :=
  s.isHosting &&
    (match s.hostInfo with
     | some h => d.roomId = h.roomId
     | none => false)

/-- The `announce` branch of electron/main.js `startDiscovery` (first
revision): validate `data.roomId` truthy, ignore the host's own
announcements, else upsert with `lastSeen = now`. -/
def handleAnnounceV1 (s : DiscoveryState) (d : Announce) (now : Nat) : DiscoveryState :=
  if d.roomId = "" then s
  else if isOwnAnnounce s d then s
  else { s with roomMap := jsSet s.roomMap d.roomId (d, now) }

/-- The `announce` branch of the final revision (part_006 lines 784-790):
validate `data.roomId` truthy, then upsert unconditionally — the hosting
instance's own announcements are no longer filtered. -/
def handleAnnounceFinal (s : DiscoveryState) (d : Announce) (now : Nat) : DiscoveryState :=
  if d.roomId = "" then s
  else { s with roomMap := jsSet s.roomMap d.roomId (d, now) }

/-! ## Invitation delivery and deduplication

The main process (part_006 `startDiscovery`, invitation branch) forwards an
invitation datagram to the renderer only when `data.roomId` and
`data.roomName` are truthy and `data.targetPeerIds` contains the local peer
id. The renderer's `handleInvitationReceived` keys a `shownInvitations`
set by the template string `roomId + "-" + hostIp + "-" + wsPort` and
surfaces the notification only when the key is new. -/

/-- An `invitation` datagram's payload. -/
structure Invitation where
  roomId : String
  roomName : String
  hostIp : String
  wsPort : Nat
  targetPeerIds : List String
deriving DecidableEq, Repr

/-- The renderer's dedup key: the template string
`roomId + "-" + hostIp + "-" + wsPort`. -/
def invKey (i : Invitation) : String :=
  i.roomId ++ "-" ++ i.hostIp ++ "-" ++ toString i.wsPort

/-- The tuple the specification says the dedup is keyed by. -/
def invTuple (i : Invitation) : String × String × Nat :=
  (i.roomId, i.hostIp, i.wsPort)

/-- The main-process gate: `data.roomId`, `data.roomName` truthy and the
local peer id among `targetPeerIds`. -/
def invitationEligible (localId : String) (i : Invitation) : Bool :=
  (i.roomId != "") && (i.roomName != "") && i.targetPeerIds.contains localId

/-- Renderer-side invitation state: the keys already shown and the
invitations actually surfaced to the observer. -/
structure InvState where
  shown : List String
  delivered : List Invitation
deriving DecidableEq, Repr

/-- `handleInvitationReceived` in renderer.js: skip when the key was
already shown, otherwise record the key and surface the invitation. -/
def handleInvitationReceived (s : InvState) (i : Invitation) : InvState :=
  if s.shown.contains (invKey i) then s
  else { shown := invKey i :: s.shown, delivered := s.delivered ++ [i] }

/-- One received invitation datagram through the main-process gate and the
renderer handler. -/
def invStep (localId : String) (s : InvState) (i : Invitation) : InvState :=
  if invitationEligible localId i then handleInvitationReceived s i else s

/-- A receipt-ordered sequence of invitation datagrams. -/
def invRun (localId : String) (s : InvState) (l : List Invitation) : InvState :=
  l.foldl (invStep localId) s

/-- Claim C7 as stated: every targeted invitation is delivered exactly once
per unique `(roomId, hostAddress, port)` tuple. -/
def invitationDedupProp : Prop :=
  ∀ (localId : String) (l : List Invitation) (t : String × String × Nat),
    (∃ i ∈ l, invitationEligible localId i = true ∧ invTuple i = t) →
    ((invRun localId ⟨[], []⟩ l).delivered.countP (fun j => invTuple j = t)) = 1

/-! ## Channel crypto (CryptoManager, part_003)

`CryptoManager.encrypt` draws a fresh 12-byte IV from
`crypto.getRandomValues`, encodes the plaintext string as UTF-8, encrypts
with WebCrypto AES-256-GCM under the memoized room key, prepends the IV and
base64-encodes the result (`btoa` over the byte string); `decrypt` inverts
each step and fails on tag mismatch. `encryptBinary`/`decryptBinary` do the
same without the UTF-8 and base64 layers.

AES-GCM itself is a platform primitive, so it is embedded at the level of
its standard structure: ciphertext is the plaintext XORed with a
counter-mode keystream derived from the key and IV, followed by a 16-byte
authentication tag over the IV and ciphertext, verified on decryption. The
keystream `ks` and tag function `tagFn` are parameters; every theorem below
holds for arbitrary instantiations, in particular for real AES-256-GCM
under the room-derived key. The per-call random IV is an explicit argument
standing for the fresh `crypto.getRandomValues` draw. -/

/-- GCM IV length used by the source (`this.ivLength = 12`). -/
def ivLength : Nat := 12

/-- Counter-mode keystream XOR from byte position `i` on. Keystream bytes
are reduced mod 256 as produced by the block cipher. -/
def ctrXor (ksb : Nat → Nat) : Nat → List Nat → List Nat
  | _, [] => []
  | i, b :: rest => (b ^^^ (ksb i % 256)) :: ctrXor ksb (i + 1) rest

/-- AES-GCM encryption body: counter-mode ciphertext followed by the
16-byte tag over IV and ciphertext (the WebCrypto output layout). -/
def gcmEncrypt (ks : List Nat → Nat → Nat) (tagFn : List Nat → List Nat → List Nat)
    (iv pt : List Nat) : List Nat :=
  let ct := ctrXor (ks iv) 0 pt
  ct ++ tagFn iv ct

/-- AES-GCM decryption body: reject inputs shorter than the tag, split off
the trailing 16-byte tag, verify it, and XOR the keystream back off. -/
def gcmDecrypt (ks : List Nat → Nat → Nat) (tagFn : List Nat → List Nat → List Nat)
    (iv dataBytes : List Nat) : Option (List Nat) :=
  if dataBytes.length < 16 then none
  else
    let ct := dataBytes.take (dataBytes.length - 16)
    let tag := dataBytes.drop (dataBytes.length - 16)
    if tag = tagFn iv ct then some (ctrXor (ks iv) 0 ct) else none

/-- `CryptoManager.encryptBinary`: fresh IV prepended to the GCM output. -/
def encryptBinary (ks : List Nat → Nat → Nat) (tagFn : List Nat → List Nat → List Nat)
    (iv dataBytes : List Nat) : List Nat :=
  iv ++ gcmEncrypt ks tagFn iv dataBytes

/-- `CryptoManager.decryptBinary`: split the first 12 bytes off as the IV
(`slice(0, 12)` / `slice(12)`) and run GCM decryption. -/
def decryptBinary (ks : List Nat → Nat → Nat) (tagFn : List Nat → List Nat → List Nat)
    (enc : List Nat) : Option (List Nat) :=
  gcmDecrypt ks tagFn (enc.take ivLength) (enc.drop ivLength)

/-! ### Base64 (`btoa` / `atob`) -/

/-- The base64 alphabet as a char code: `A-Z`, `a-z`, `0-9`, `+`, `/`. -/
def sextetChar (s : Nat) : Nat :=
  if s < 26 then 65 + s
  else if s < 52 then 97 + (s - 26)
  else if s < 62 then 48 + (s - 52)
  else if s = 62 then 43
  else 47

/-- Inverse alphabet lookup; `none` on a char outside the alphabet. -/
def charSextet (c : Nat) : Option Nat :=
  if 65 ≤ c ∧ c ≤ 90 then some (c - 65)
  else if 97 ≤ c ∧ c ≤ 122 then some (c - 97 + 26)
  else if 48 ≤ c ∧ c ≤ 57 then some (c - 48 + 52)
  else if c = 43 then some 62
  else if c = 47 then some 63
  else none

/-- `btoa` over a byte list: 3-byte groups into 4 alphabet chars, with `=`
(char 61) padding closing a 1- or 2-byte tail. -/
def base64Encode : List Nat → List Nat
  | [] => []
  | [a] => [sextetChar (a / 4), sextetChar (a % 4 * 16), 61, 61]
  | [a, b] => [sextetChar (a / 4), sextetChar (a % 4 * 16 + b / 16), sextetChar (b % 16 * 4), 61]
  | a :: b :: c :: rest =>
    sextetChar (a / 4) :: sextetChar (a % 4 * 16 + b / 16) ::
      sextetChar (b % 16 * 4 + c / 64) :: sextetChar (c % 64) :: base64Encode rest

/-- `atob`: decode 4-char groups, honouring `=` padding in the final group;
`none` on malformed input. -/
def base64Decode : List Nat → Option (List Nat)
  | [] => some []
  | c1 :: c2 :: c3 :: c4 :: rest =>
    match charSextet c1, charSextet c2 with
    | some s1, some s2 =>
      if c3 = 61 then
        if c4 = 61 ∧ rest = [] then some [s1 * 4 + s2 / 16] else none
      else
        match charSextet c3 with
        | some s3 =>
          if c4 = 61 then
            if rest = [] then some [s1 * 4 + s2 / 16, s2 % 16 * 16 + s3 / 4] else none
          else
            match charSextet c4, base64Decode rest with
            | some s4, some tl =>
              some ((s1 * 4 + s2 / 16) :: (s2 % 16 * 16 + s3 / 4) :: (s3 % 4 * 64 + s4) :: tl)
            | _, _ => none
        | none => none
    | _, _ => none
  | _ => none

/-! ### UTF-8 (`TextEncoder` / `TextDecoder`) -/

/-- A unicode scalar value as a JS string exposes it to `TextEncoder`:
below 0x110000 and not a surrogate. -/
def ValidScalar (c : Nat) : Prop :=
  c < 1114112 ∧ ¬ (55296 ≤ c ∧ c < 57344)

instance (c : Nat) : Decidable (ValidScalar c) := by
  unfold ValidScalar
  infer_instance

/-- UTF-8 bytes of one scalar value. -/
def utf8EncodeChar (c : Nat) : List Nat :=
  if c < 128 then [c]
  else if c < 2048 then [192 + c / 64, 128 + c % 64]
  else if c < 65536 then [224 + c / 4096, 128 + c / 64 % 64, 128 + c % 64]
  else [240 + c / 262144, 128 + c / 4096 % 64, 128 + c / 64 % 64, 128 + c % 64]

/-- `TextEncoder().encode` over the scalar values of a string. -/
def utf8Encode (l : List Nat) : List Nat :=
  (l.map utf8EncodeChar).flatten

/-- One step of `TextDecoder().decode`: decode a single scalar value from
the first byte `b` and the remaining bytes, returning the scalar and the
bytes left over; `none` on a malformed sequence. -/
def utf8DecodeChar (b : Nat) (rest : List Nat) : Option (Nat × List Nat) :=
  if b < 128 then some (b, rest)
  else if b < 192 then none
  else if b < 224 then
    match rest with
    | b2 :: rest2 =>
      if 128 ≤ b2 ∧ b2 < 192 then some ((b - 192) * 64 + (b2 - 128), rest2) else none
    | [] => none
  else if b < 240 then
    match rest with
    | b2 :: b3 :: rest2 =>
      if (128 ≤ b2 ∧ b2 < 192) ∧ (128 ≤ b3 ∧ b3 < 192) then
        some ((b - 224) * 4096 + (b2 - 128) * 64 + (b3 - 128), rest2)
      else none
    | _ => none
  else if b < 248 then
    match rest with
    | b2 :: b3 :: b4 :: rest2 =>
      if (128 ≤ b2 ∧ b2 < 192) ∧ (128 ≤ b3 ∧ b3 < 192) ∧ (128 ≤ b4 ∧ b4 < 192) then
        some ((b - 240) * 262144 + (b2 - 128) * 4096 + (b3 - 128) * 64 + (b4 - 128), rest2)
      else none
    | _ => none
  else none

/-- `TextDecoder().decode`: reassemble scalar values from UTF-8 bytes;
`none` on a malformed sequence. -/
def utf8Decode : List Nat → Option (List Nat)
  | [] => some []
  | b :: rest =>
    match h : utf8DecodeChar b rest with
    | none => none
    | some p => (utf8Decode p.2).map (fun l => p.1 :: l)
termination_by l => l.length
decreasing_by
  simp only [List.length_cons]
  have hlen : p.2.length ≤ rest.length := by
    unfold utf8DecodeChar at h
    split_ifs at h with hA hB hC hD hE
    · injection h with h2
      subst h2
      simp
    · rcases rest with _ | ⟨b2, rest2⟩
      · simp at h
      · dsimp only at h
        split_ifs at h
        injection h with h2
        subst h2
        simp
    · rcases rest with _ | ⟨b2, rest2⟩
      · simp at h
      · rcases rest2 with _ | ⟨b3, rest3⟩
        · simp at h
        · dsimp only at h
          split_ifs at h
          injection h with h2
          subst h2
          simp
          omega
    · rcases rest with _ | ⟨b2, rest2⟩
      · simp at h
      · rcases rest2 with _ | ⟨b3, rest3⟩
        · simp at h
        · rcases rest3 with _ | ⟨b4, rest4⟩
          · simp at h
          · dsimp only at h
            split_ifs at h
            injection h with h2
            subst h2
            simp
            omega
  omega

/-- `CryptoManager.encrypt`: UTF-8 encode the plaintext, GCM-encrypt,
prepend the IV, base64 the combined bytes. The plaintext is given as the
string's scalar values, the result as `btoa` output char codes. -/
def encryptText (ks : List Nat → Nat → Nat) (tagFn : List Nat → List Nat → List Nat)
    (iv pt : List Nat) : List Nat :=
  base64Encode (iv ++ gcmEncrypt ks tagFn iv (utf8Encode pt))

/-- `CryptoManager.decrypt`: base64-decode, split the IV off, GCM-decrypt,
UTF-8 decode; any failing step fails the call. -/
def decryptText (ks : List Nat → Nat → Nat) (tagFn : List Nat → List Nat → List Nat)
    (enc : List Nat) : Option (List Nat) :=
  match base64Decode enc with
  | none => none
  | some combined =>
    match gcmDecrypt ks tagFn (combined.take ivLength) (combined.drop ivLength) with
    | none => none
    | some ptBytes => utf8Decode ptBytes

/-! ## Claim statements used by the refutations

Each `...Prop` below is the corresponding claim exactly as the
specification states it, so that a counterexample theorem can refute the
claim as a whole. -/

/-- Claim C5 as stated: whenever the connection closes, the promise
returned by `connect` is no longer pending (it settled). -/
def connectSettlesProp : Prop :=
  ∀ events : List WsEvent, hasClose events = true →
    (runConnect events).promise ≠ PromiseState.pending

/-- Claim C9 as stated: a late negotiation message for a peer with no
record is dropped without creating a link or altering any state. -/
def lateMessageDroppedProp : Prop :=
  ∀ (answerFor : String → String) (m : RtcManager) (p sdp cand : String),
    m.peers.lookup p = none →
    handleOffer answerFor m p sdp = m ∧ handleAnswer m p sdp = m ∧ handleIce m p cand = m

/-- Claim C8 as stated, read against the final revision of the announce
branch: an announce carrying the hosted room's id never changes the
hosting instance's own directory. -/
def selfAnnounceFilteredProp : Prop :=
  ∀ (s : DiscoveryState) (d : Announce) (now : Nat) (h : HostInfo),
    s.isHosting = true → s.hostInfo = some h → d.roomId = h.roomId →
    handleAnnounceFinal s d now = s

/-! # Theorems -/

/-! ## C1: deterministic offer election -/

theorem onLearnPeer_contains_mono (A : String) (s : RtcPeers) (r B : String)
    (h : hasPeerId s B = true) : hasPeerId (onLearnPeer A s r) B = true := by
  unfold onLearnPeer
  split_ifs <;> simp_all [hasPeerId]

theorem runLearn_contains (A B : String) (s : RtcPeers) (e : List String)
    (hAB : A < B) (h : hasPeerId s B = true ∨ B ∈ e) :
    hasPeerId (runLearn A s e) B = true := by
  induction e generalizing s with
  | nil =>
    rcases h with h | h
    · exact h
    · cases h
  | cons r rest ih =>
    show hasPeerId (runLearn A (onLearnPeer A s r) rest) B = true
    rcases h with h | h
    · exact ih _ (Or.inl (onLearnPeer_contains_mono A s r B h))
    · rcases List.mem_cons.mp h with rfl | hmem
      · refine ih _ (Or.inl ?_)
        unfold onLearnPeer
        split_ifs <;> simp_all [hasPeerId]
      · exact ih _ (Or.inr hmem)

theorem onLearnPeer_count_inv (A B : String) (s : RtcPeers) (r : String)
    (h : s.offered.count B = if hasPeerId s B then 1 else 0) :
    (onLearnPeer A s r).offered.count B =
      if hasPeerId (onLearnPeer A s r) B then 1 else 0 := by
  unfold onLearnPeer
  by_cases h1 : hasPeerId s r
  · simp only [h1, if_true]
    exact h
  · simp only [h1, Bool.false_eq_true, if_false]
    by_cases h2 : A < r
    · simp only [h2, if_true]
      by_cases hrB : r = B
      · subst hrB
        have hB : hasPeerId s r = false := by
          simpa using h1
        have hc : s.offered.count r = 0 := by
          rw [h, hB]
          simp
        simp [hasPeerId, List.contains_cons, List.count_cons, hc]
      · have : (B == r) = false := by
          simp only [beq_eq_false_iff_ne, ne_eq]
          intro hc
          exact hrB hc.symm
        simp only [hasPeerId, List.contains_cons, this, Bool.false_or]
        rw [List.count_cons]
        simp only [beq_eq_false_iff_ne, ne_eq] at this
        have hrB' : (r == B) = false := by simp [hrB]
        simp [hrB', hasPeerId] at h ⊢
        exact h
    · simp only [h2, if_false]
      exact h

theorem runLearn_count_inv (A B : String) (s : RtcPeers) (e : List String)
    (h : s.offered.count B = if hasPeerId s B then 1 else 0) :
    (runLearn A s e).offered.count B =
      if hasPeerId (runLearn A s e) B then 1 else 0 := by
  induction e generalizing s with
  | nil => exact h
  | cons r rest ih =>
    show (runLearn A (onLearnPeer A s r) rest).offered.count B = _
    exact ih _ (onLearnPeer_count_inv A B s r h)

theorem runLearn_no_offer_high (A B : String) (s : RtcPeers) (e : List String)
    (hAB : A < B) :
    (runLearn B s e).offered.count A = s.offered.count A := by
  induction e generalizing s with
  | nil => rfl
  | cons r rest ih =>
    show (runLearn B (onLearnPeer B s r) rest).offered.count A = _
    rw [ih]
    unfold onLearnPeer
    by_cases h1 : hasPeerId s r
    · simp [h1]
    · by_cases h2 : B < r
      · have hrA : (A == r) = false := by
          simp only [beq_eq_false_iff_ne, ne_eq]
          intro hc
          subst hc
          exact absurd (lt_trans hAB h2) (lt_irrefl A)
        simp only [h1, Bool.false_eq_true, if_false, h2, if_true, List.count_cons]
        simp only [beq_eq_false_iff_ne, ne_eq] at hrA
        have : (r == A) = false := by simp; intro hc; exact hrA hc.symm
        simp [this]
      · simp [h1, h2]

/-- C1: for distinct client ids `A < B`, whatever sequences of
learned-peer notifications (welcome participant entries and peer-joined
notices) the two renderer clients each receive, client `A` invokes
`createOfferTo` toward `B` exactly once -- provided it learns of `B` at
least once -- and client `B` never invokes `createOfferTo` toward `A`. -/
theorem offer_election_deterministic (A B : String) (eA eB : List String)
    (hAB : A < B) (hmem : B ∈ eA) :
    (runLearn A ⟨[], []⟩ eA).offered.count B = 1 ∧
    (runLearn B ⟨[], []⟩ eB).offered.count A = 0 := by
  constructor
  · have hinv := runLearn_count_inv A B ⟨[], []⟩ eA (by simp [hasPeerId])
    have hcon := runLearn_contains A B ⟨[], []⟩ eA hAB (Or.inr hmem)
    rw [hinv, hcon]
    simp
  · rw [runLearn_no_offer_high A B ⟨[], []⟩ eB hAB]
    simp

/-- Witness for C1 at concrete ids and event sequences. -/
theorem offer_election_deterministic_witness :
    (runLearn "a" ⟨[], []⟩ ["b", "b", "c"]).offered.count "b" = 1 ∧
    (runLearn "b" ⟨[], []⟩ ["a", "a"]).offered.count "a" = 0 :=
  offer_election_deterministic "a" "b" ["b", "b", "c"] ["a", "a"]
    (by simp [String.lt_iff_toList_lt]; decide) (by decide)


/-! ## C10: send with no open connection silently discards -/

/-- C10: whenever `SignalingClient.send` runs while no WebSocket is
assigned or the socket's `readyState` is not OPEN, the call returns
normally and the entire client state is unchanged: the envelope is neither
transmitted nor queued (the client has no queue), so offers, answers and
ICE candidates issued at such times are lost without signal. -/
theorem send_silently_discarded (encView : SigMsg → SigMsg) (s : ClientState) (m : SigMsg)
    (h : s.ws ≠ some ReadyState.opened) :
    clientSend encView s m = s := by
  unfold clientSend
  cases hws : s.ws with
  | none => rfl
  | some rs =>
    cases rs with
    | opened => exact absurd hws h
    | connecting => rfl
    | closing => rfl
    | closed => rfl

/-- Witness for C10: a concrete client whose socket already closed. -/
theorem send_silently_discarded_witness :
    clientSend id ⟨some ReadyState.closed, []⟩ (SigMsg.offer "a" "sdp") =
      ⟨some ReadyState.closed, []⟩ :=
  send_silently_discarded id ⟨some ReadyState.closed, []⟩ (SigMsg.offer "a" "sdp")
    (by decide)

/-! ## C5: the connect promise never rejects and can stay pending -/

theorem connect_foldl_promise (events : List WsEvent) (s : ConnectState) :
    (events.foldl connectStep s).promise =
      if hasWelcome events = true then resolvePromise s.promise else s.promise := by
  induction events generalizing s with
  | nil => simp [hasWelcome]
  | cons e rest ih =>
    show ((rest.foldl connectStep (connectStep s e)).promise) = _
    rw [ih]
    cases e with
    | wsOpen => simp [hasWelcome, connectStep]
    | wsError => simp [hasWelcome, connectStep]
    | wsClose => simp [hasWelcome, connectStep]
    | wsMessage m =>
      match m with
      | none => simp [hasWelcome, connectStep]
      | some (SigMsg.welcome ps) =>
        have hres : ∀ p, resolvePromise (resolvePromise p) = resolvePromise p := by
          intro p
          cases p <;> rfl
        simp [hasWelcome, connectStep, hres]
      | some (SigMsg.peerJoined c) => simp [hasWelcome, connectStep]
      | some (SigMsg.peerLeft c) => simp [hasWelcome, connectStep]
      | some (SigMsg.offer a b) => simp [hasWelcome, connectStep]
      | some (SigMsg.answer a b) => simp [hasWelcome, connectStep]
      | some (SigMsg.ice a b) => simp [hasWelcome, connectStep]
      | some SigMsg.endMeeting => simp [hasWelcome, connectStep]
      | some SigMsg.untagged => simp [hasWelcome, connectStep]

theorem connect_foldl_closed (events : List WsEvent) (s : ConnectState) :
    (events.foldl connectStep s).onClosedFired =
      (s.onClosedFired || hasClose events) := by
  induction events generalizing s with
  | nil => simp [hasClose]
  | cons e rest ih =>
    show ((rest.foldl connectStep (connectStep s e)).onClosedFired) = _
    rw [ih]
    cases e with
    | wsOpen => simp [hasClose, connectStep]
    | wsError => simp [hasClose, connectStep]
    | wsClose => simp [hasClose, connectStep]
    | wsMessage m =>
      match m with
      | none => simp [hasClose, connectStep]
      | some (SigMsg.welcome ps) => simp [hasClose, connectStep]
      | some (SigMsg.peerJoined c) => simp [hasClose, connectStep]
      | some (SigMsg.peerLeft c) => simp [hasClose, connectStep]
      | some (SigMsg.offer a b) => simp [hasClose, connectStep]
      | some (SigMsg.answer a b) => simp [hasClose, connectStep]
      | some (SigMsg.ice a b) => simp [hasClose, connectStep]
      | some SigMsg.endMeeting => simp [hasClose, connectStep]
      | some SigMsg.untagged => simp [hasClose, connectStep]

/-- C5 counterexample: the connection opens and then closes before any
`welcome` arrives; the promise returned by `connect` is still pending (it
neither resolved nor rejected), refuting the claim that it settles. The
`onClosed` handler did fire. -/
theorem connect_promise_unsettled_on_close : ¬ connectSettlesProp := by
  intro h
  exact h [WsEvent.wsOpen, WsEvent.wsClose] (by decide) (by decide)

/-- C5 amended: the promise resolves exactly when a `welcome` message is
processed (and is never rejected); if the connection closes before a
`welcome`, the `onClosed` callback is invoked but the promise remains
pending forever -- the awaiting caller is left on an unsettled promise. -/
theorem connect_resolves_only_on_welcome (events : List WsEvent) :
    (runConnect events).promise =
      (if hasWelcome events = true then PromiseState.resolved else PromiseState.pending) ∧
    (runConnect events).onClosedFired = hasClose events := by
  constructor
  · rw [runConnect, connect_foldl_promise]
    rfl
  · rw [runConnect, connect_foldl_closed]
    simp [connectInit]

/-! ## C9: late negotiation messages for a closed link -/

theorem lookup_none_keys {α : Type} (l : List (String × α)) (k : String)
    (h : l.lookup k = none) : ∀ p ∈ l, p.1 ≠ k := by
  induction l with
  | nil => intro p hp; cases hp
  | cons a t ih =>
    intro p hp
    rw [List.lookup_cons] at h
    rcases List.mem_cons.mp hp with rfl | hmem
    · intro hc
      rw [show (k == p.1) = true by simp [hc]] at h
      cases h
    · rcases hbeq : (k == a.1) with _ | _
      · rw [hbeq] at h
        exact ih h p hmem
      · rw [hbeq] at h
        cases h

theorem map_keys_ne {α : Type} (l : List (String × α)) (k : String) (f : α → α)
    (h : ∀ p ∈ l, p.1 ≠ k) :
    l.map (fun p => if p.1 = k then (p.1, f p.2) else p) = l := by
  induction l with
  | nil => rfl
  | cons a t ih =>
    simp only [List.map_cons]
    rw [if_neg (h a (List.mem_cons_self a t)), ih]
    intro p hp
    exact h p (List.mem_cons_of_mem a hp)

/-- C9 counterexample: after `removePeer` deletes peer `p`, a late `offer`
from `p` is not dropped -- `handleOffer` recreates a link through
`_ensurePeer`, refuting the claim that no negotiation message for a
removed peer creates a new link. -/
theorem late_offer_recreates_link : ¬ lateMessageDroppedProp := by
  intro h
  have hmain :=
    (h id (removePeer ⟨[("p", freshPeerRec)]⟩ "p") "p" "sdp" "cand" (by decide)).1
  have hlook := congrArg (fun mm => mm.peers.lookup "p") hmain
  exact absurd hlook (by decide)

/-- C9 amended: after a peer link has been removed from the map, a late
`answer` or ICE candidate finds no record and is dropped with the whole
state unchanged and no error; a late `offer`, however, is not dropped: it
registers a brand-new fresh link for that peer (leaving every other entry
unchanged) and produces an answer for it. -/
theorem late_message_handling (answerFor : String → String) (m : RtcManager)
    (p sdp cand : String) (h : m.peers.lookup p = none) :
    handleAnswer m p sdp = m ∧
    handleIce m p cand = m ∧
    (handleOffer answerFor m p sdp).peers =
      m.peers ++ [(p, { remoteDesc := some sdp, localDesc := some (answerFor sdp),
                        candidates := [] })] := by
  refine ⟨?_, ?_, ?_⟩
  · unfold handleAnswer
    rw [h]
  · unfold handleIce
    rw [h]
  · unfold handleOffer ensurePeer
    rw [h]
    simp only [List.map_append]
    have hne := lookup_none_keys m.peers p h
    have hm :
        m.peers.map (fun q => if q.1 = p then (q.1, { q.2 with remoteDesc := some sdp, localDesc := some (answerFor sdp) }) else q) = m.peers :=
      map_keys_ne m.peers p
        (fun r => { r with remoteDesc := some sdp, localDesc := some (answerFor sdp) }) hne
    rw [hm]
    simp [freshPeerRec]

/-- Witness for C9 at a concrete one-entry map missing the peer. -/
theorem late_message_handling_witness :
    handleAnswer ⟨[("q", freshPeerRec)]⟩ "p" "s" = ⟨[("q", freshPeerRec)]⟩ ∧
    handleIce ⟨[("q", freshPeerRec)]⟩ "p" "c" = ⟨[("q", freshPeerRec)]⟩ ∧
    (handleOffer id ⟨[("q", freshPeerRec)]⟩ "p" "s").peers =
      [("q", freshPeerRec)] ++ [("p", { remoteDesc := some "s", localDesc := some (id "s"),
                                        candidates := [] })] :=
  late_message_handling id ⟨[("q", freshPeerRec)]⟩ "p" "s" "c" (by decide)

/-! ## C8: self-announcement filtering -/

/-- C8 counterexample: in the final revision of the announce branch, a
hosting instance receiving an announce datagram carrying its own hosted
room id inserts that entry into its own room directory, refuting the claim
that self-announcements are filtered out. -/
theorem final_revision_keeps_own_announce : ¬ selfAnnounceFilteredProp := by
  intro h
  have hmain := h ⟨true, some ⟨"r", "Room", "ip", 1⟩, []⟩ ⟨"r", "Room", "ip", 1, 2, 0⟩ 5
    ⟨"r", "Room", "ip", 1⟩ rfl rfl rfl
  exact absurd hmain (by decide)

/-- C8 amended: the first revision of the announce branch
(electron/main.js lines 92-105) does filter the hosting instance's own
announcements -- the handler leaves all state unchanged -- while the final
revision (part_006 lines 784-790) deliberately upserts the host's own room
into its own directory. -/
theorem self_announce_two_revisions (s : DiscoveryState) (d : Announce) (now : Nat)
    (h : HostInfo) (hh : s.isHosting = true) (hs : s.hostInfo = some h)
    (hr : d.roomId = h.roomId) (hnz : d.roomId ≠ "") :
    handleAnnounceV1 s d now = s ∧
    (handleAnnounceFinal s d now).roomMap = jsSet s.roomMap d.roomId (d, now) := by
  constructor
  · unfold handleAnnounceV1
    rw [if_neg hnz, if_pos]
    unfold isOwnAnnounce
    rw [hh, hs]
    simp [hr]
  · unfold handleAnnounceFinal
    rw [if_neg hnz]

/-- Witness for C8 at a concrete hosting state and self-announce. -/
theorem self_announce_two_revisions_witness :
    handleAnnounceV1 ⟨true, some ⟨"r", "Room", "ip", 1⟩, []⟩ ⟨"r", "Room", "ip", 1, 2, 0⟩ 5 =
      ⟨true, some ⟨"r", "Room", "ip", 1⟩, []⟩ ∧
    (handleAnnounceFinal ⟨true, some ⟨"r", "Room", "ip", 1⟩, []⟩ ⟨"r", "Room", "ip", 1, 2, 0⟩ 5).roomMap =
      jsSet ([] : List (String × Announce × Nat)) "r" (⟨"r", "Room", "ip", 1, 2, 0⟩, 5) :=
  self_announce_two_revisions ⟨true, some ⟨"r", "Room", "ip", 1⟩, []⟩ ⟨"r", "Room", "ip", 1, 2, 0⟩ 5
    ⟨"r", "Room", "ip", 1⟩ rfl rfl rfl (by decide)

/-! ## C7: invitation deduplication -/

theorem invRun_inv (localId k : String) (l : List Invitation) (s : InvState)
    (h : s.delivered.countP (fun j => invKey j == k) = if k ∈ s.shown then 1 else 0) :
    ((invRun localId s l).delivered.countP (fun j => invKey j == k) =
      if k ∈ (invRun localId s l).shown then 1 else 0) ∧
    (k ∈ (invRun localId s l).shown ↔
      (k ∈ s.shown ∨ ∃ i ∈ l, invitationEligible localId i = true ∧ invKey i = k)) := by
  induction l generalizing s with
  | nil =>
    refine ⟨h, ?_⟩
    simp [invRun]
  | cons i rest ih =>
    have hshow : invRun localId s (i :: rest) = invRun localId (invStep localId s i) rest := rfl
    rw [hshow]
    by_cases he : invitationEligible localId i = true
    · by_cases hk : invKey i ∈ s.shown
      · have hstep : invStep localId s i = s := by
          unfold invStep handleInvitationReceived
          rw [if_pos he, if_pos (List.elem_iff.mpr hk)]
        rw [hstep]
        obtain ⟨h1, h2⟩ := ih s h
        refine ⟨h1, ?_⟩
        rw [h2]
        constructor
        · rintro (hs | ⟨j, hj, hje, hjk⟩)
          · exact Or.inl hs
          · exact Or.inr ⟨j, List.mem_cons_of_mem i hj, hje, hjk⟩
        · rintro (hs | ⟨j, hj, hje, hjk⟩)
          · exact Or.inl hs
          · rcases List.mem_cons.mp hj with rfl | hj'
            · exact Or.inl (hjk ▸ hk)
            · exact Or.inr ⟨j, hj', hje, hjk⟩
      · have hstep : invStep localId s i =
            ⟨invKey i :: s.shown, s.delivered ++ [i]⟩ := by
          unfold invStep handleInvitationReceived
          rw [if_pos he, if_neg]
          intro hc
          exact hk (List.elem_iff.mp hc)
        rw [hstep]
        have h' : ((⟨invKey i :: s.shown, s.delivered ++ [i]⟩ : InvState)).delivered.countP
              (fun j => invKey j == k) =
            if k ∈ ((⟨invKey i :: s.shown, s.delivered ++ [i]⟩ : InvState)).shown then 1 else 0 := by
          show (s.delivered ++ [i]).countP (fun j => invKey j == k) =
            if k ∈ invKey i :: s.shown then 1 else 0
          rw [List.countP_append, h]
          by_cases hik : invKey i = k
          · have hck : k ∉ s.shown := by
              rw [← hik]
              exact hk
            simp [hck, hik, List.mem_cons]
          · have hbe : (invKey i == k) = false := by simp [hik]
            have hmemiff : (k ∈ invKey i :: s.shown) ↔ k ∈ s.shown := by
              rw [List.mem_cons]
              constructor
              · rintro (rfl | hs)
                · exact absurd rfl hik
                · exact hs
              · exact Or.inr
            rw [if_congr hmemiff rfl rfl]
            simp [hbe]
        obtain ⟨h1, h2⟩ := ih ⟨invKey i :: s.shown, s.delivered ++ [i]⟩ h'
        refine ⟨h1, ?_⟩
        rw [h2]
        simp only [List.mem_cons]
        constructor
        · rintro ((rfl | hs) | ⟨j, hj, hje, hjk⟩)
          · exact Or.inr ⟨i, Or.inl rfl, he, rfl⟩
          · exact Or.inl hs
          · exact Or.inr ⟨j, Or.inr hj, hje, hjk⟩
        · rintro (hs | ⟨j, hj, hje, hjk⟩)
          · exact Or.inl (Or.inr hs)
          · rcases hj with rfl | hj'
            · exact Or.inl (Or.inl hjk.symm)
            · exact Or.inr ⟨j, hj', hje, hjk⟩
    · have hstep : invStep localId s i = s := by
        unfold invStep
        rw [if_neg he]
      rw [hstep]
      obtain ⟨h1, h2⟩ := ih s h
      refine ⟨h1, ?_⟩
      rw [h2]
      constructor
      · rintro (hs | ⟨j, hj, hje, hjk⟩)
        · exact Or.inl hs
        · exact Or.inr ⟨j, List.mem_cons_of_mem i hj, hje, hjk⟩
      · rintro (hs | ⟨j, hj, hje, hjk⟩)
        · exact Or.inl hs
        · rcases List.mem_cons.mp hj with rfl | hj'
          · exact absurd hje he
          · exact Or.inr ⟨j, hj', hje, hjk⟩

/-- C7 counterexample: two invitations with distinct
`(roomId, hostAddress, port)` tuples -- `("r-1", "2", 3)` and
`("r", "1-2", 3)` -- collide on the dash-joined dedup key `"r-1-2-3"`, so
the second targeted invitation is never delivered: delivery is not
"exactly once per unique tuple". -/
theorem invitation_dedup_key_collision : ¬ invitationDedupProp := by
  intro h
  have hmain := h "me" [⟨"r-1", "Room", "2", 3, ["me"]⟩, ⟨"r", "Room", "1-2", 3, ["me"]⟩]
    ("r", "1-2", 3) ⟨⟨"r", "Room", "1-2", 3, ["me"]⟩, by decide, by decide, rfl⟩
  exact absurd hmain (by decide)

/-- C7 amended: delivery to the observer is exactly once per unique
dash-joined dedup key `roomId + "-" + hostIp + "-" + wsPort`: over any
receipt sequence, a key carried by at least one eligible (targeted, valid)
invitation is delivered exactly once, and a key carried by none is never
delivered. Distinct tuples are therefore delivered at most once each, but
tuples whose joined keys collide are conflated into a single delivery. -/
theorem invitation_delivered_once_per_key (localId k : String) (l : List Invitation) :
    (invRun localId ⟨[], []⟩ l).delivered.countP (fun j => invKey j == k) =
      if ∃ i ∈ l, invitationEligible localId i = true ∧ invKey i = k then 1 else 0 := by
  obtain ⟨h1, h2⟩ := invRun_inv localId k l ⟨[], []⟩ (by simp)
  rw [h1]
  have : (k ∈ (invRun localId ⟨[], []⟩ l).shown) ↔
      (∃ i ∈ l, invitationEligible localId i = true ∧ invKey i = k) := by
    rw [h2]
    simp
  rw [if_congr this rfl rfl]

/-! ## C4: TTL sweep and structural change detection -/

theorem jsSet_keys_nodup {α : Type} (m : List (String × α)) (k : String) (v : α)
    (h : (m.map Prod.fst).Nodup) : ((jsSet m k v).map Prod.fst).Nodup := by
  unfold jsSet
  split_ifs with hany
  · have hkeys : (m.map (fun p => if p.1 = k then (k, v) else p)).map Prod.fst
        = m.map Prod.fst := by
      rw [List.map_map]
      refine List.map_congr_left ?_
      intro p _
      by_cases hp : p.1 = k
      · simp [hp]
      · simp [hp]
    rw [hkeys]
    exact h
  · have hk : k ∉ m.map Prod.fst := by
      intro hc
      rcases List.mem_map.mp hc with ⟨p, hp, hpk⟩
      have hany' : ∀ (x : α), (k, x) ∉ m := by simpa using hany
      have hpe : (k, p.2) = p := by
        rw [← hpk]
      exact hany' p.2 (hpe ▸ hp)
    rw [List.map_append]
    simp only [List.map_cons, List.map_nil]
    rw [List.nodup_append]
    refine ⟨h, List.nodup_singleton k, ?_⟩
    intro a ha hb
    simp at hb
    subst hb
    exact hk ha

theorem assoc_lookup_mem {α : Type} (l : List (String × α)) (k : String) (v : α)
    (h : l.lookup k = some v) : (k, v) ∈ l := by
  induction l with
  | nil => cases h
  | cons a t ih =>
    obtain ⟨ak, av⟩ := a
    by_cases hk : k = ak
    · subst hk
      simp [List.lookup_cons] at h
      subst h
      exact List.mem_cons_self _ _
    · rw [show ((ak, av) :: t).lookup k = t.lookup k by
        simp [List.lookup_cons, beq_false_of_ne hk]] at h
      exact List.mem_cons_of_mem _ (ih h)

theorem assoc_mem_lookup {α : Type} (l : List (String × α)) (k : String) (v : α)
    (hn : (l.map Prod.fst).Nodup) (h : (k, v) ∈ l) : l.lookup k = some v := by
  induction l with
  | nil => cases h
  | cons a t ih =>
    obtain ⟨ak, av⟩ := a
    simp only [List.map_cons, List.nodup_cons] at hn
    rcases List.mem_cons.mp h with heq | hmem
    · injection heq with h1 h2
      subst h1
      subst h2
      simp [List.lookup_cons]
    · by_cases hk : k = ak
      · subst hk
        exact absurd (List.mem_map.mpr ⟨(k, v), hmem, rfl⟩) hn.1
      · rw [show ((ak, av) :: t).lookup k = t.lookup k by
          simp [List.lookup_cons, beq_false_of_ne hk]]
        exact ih hn.2 hmem

theorem assoc_lookup_none_iff {α : Type} (l : List (String × α)) (k : String) :
    l.lookup k = none ↔ k ∉ l.map Prod.fst := by
  induction l with
  | nil => simp
  | cons a t ih =>
    obtain ⟨ak, av⟩ := a
    by_cases hk : k = ak
    · subst hk
      simp [List.lookup_cons]
    · rw [show ((ak, av) :: t).lookup k = t.lookup k by
        simp [List.lookup_cons, beq_false_of_ne hk]]
      simp only [List.map_cons, List.mem_cons]
      rw [ih]
      constructor
      · intro hnot hc
        rcases hc with hc | hc
        · exact hk hc
        · exact hnot hc
      · intro hnot hc
        exact hnot (Or.inr hc)

theorem buildRooms_aux_keys_nodup (l : List Announce) :
    ∀ acc : List (String × Announce), (acc.map Prod.fst).Nodup →
      ((l.foldl (fun acc r => jsSet acc r.roomId r) acc).map Prod.fst).Nodup := by
  induction l with
  | nil => intro acc h; exact h
  | cons r rest ih =>
    intro acc h
    exact ih _ (jsSet_keys_nodup acc r.roomId r h)

theorem buildRooms_keys_nodup (l : List Announce) :
    ((buildRooms l).map Prod.fst).Nodup :=
  buildRooms_aux_keys_nodup l [] (by simp)

theorem updateRoomsChanged_false_iff (cur : List (String × Announce)) (l : List Announce)
    (hcur : (cur.map Prod.fst).Nodup) :
    updateRoomsChanged cur (buildRooms l) = false ↔
      ∀ k, cur.lookup k = (buildRooms l).lookup k := by
  have hnext : ((buildRooms l).map Prod.fst).Nodup := buildRooms_keys_nodup l
  set next := buildRooms l with hnextdef
  constructor
  · intro hch
    unfold updateRoomsChanged at hch
    split_ifs at hch with hlen
    have hall : ∀ p ∈ next, cur.lookup p.1 = some p.2 := by
      intro p hp
      have := List.any_eq_false.mp hch p hp
      simpa using this
    push_neg at hlen
    -- entries of next are entries of cur
    have hsub : next ⊆ cur := by
      intro p hp
      have := hall p hp
      exact assoc_lookup_mem cur p.1 p.2 (by simpa using this)
    have hndnext : next.Nodup := List.Nodup.of_map Prod.fst hnext
    have hperm : List.Perm next cur :=
      List.Subperm.perm_of_length_le (hndnext.subperm hsub) (le_of_eq hlen.symm)
    intro k
    cases hcl : cur.lookup k with
    | some v =>
      have hmemc : (k, v) ∈ cur := assoc_lookup_mem cur k v hcl
      have hmemn : (k, v) ∈ next := (hperm.mem_iff).mpr hmemc
      exact (assoc_mem_lookup next k v hnext hmemn).symm
    | none =>
      have hkc : k ∉ cur.map Prod.fst := (assoc_lookup_none_iff cur k).mp hcl
      have hkn : k ∉ next.map Prod.fst := by
        intro hc
        rcases List.mem_map.mp hc with ⟨p, hp, hpk⟩
        exact hkc (List.mem_map.mpr ⟨p, hperm.mem_iff.mp hp, hpk⟩)
      exact ((assoc_lookup_none_iff next k).mpr hkn).symm
  · intro hpt
    unfold updateRoomsChanged
    have hmemiff : ∀ a, a ∈ next.map Prod.fst ↔ a ∈ cur.map Prod.fst := by
      intro a
      constructor
      · intro ha
        rcases List.mem_map.mp ha with ⟨p, hp, hpk⟩
        have := assoc_mem_lookup next p.1 p.2 hnext hp
        have hc : cur.lookup p.1 = some p.2 := by rw [hpt p.1]; exact this
        exact hpk ▸ List.mem_map.mpr ⟨p, assoc_lookup_mem cur p.1 p.2 hc, rfl⟩
      · intro ha
        rcases List.mem_map.mp ha with ⟨p, hp, hpk⟩
        have := assoc_mem_lookup cur p.1 p.2 hcur hp
        have hc : next.lookup p.1 = some p.2 := by rw [← hpt p.1]; exact this
        exact hpk ▸ List.mem_map.mpr ⟨p, assoc_lookup_mem next p.1 p.2 hc, rfl⟩
    have hpermkeys : List.Perm (next.map Prod.fst) (cur.map Prod.fst) :=
      (List.perm_ext_iff_of_nodup hnext hcur).mpr hmemiff
    have hlen : next.length = cur.length := by
      have := hpermkeys.length_eq
      simpa using this
    rw [if_neg (by simp [hlen])]
    rw [List.any_eq_false]
    intro p hp
    have := assoc_mem_lookup next p.1 p.2 hnext hp
    have hc : cur.lookup p.1 = some p.2 := by rw [hpt p.1]; exact this
    simp [hc]

/-- C4: the sweep keeps exactly the entries refreshed within the TTL of
6000 ms (3 times the 2000 ms broadcast period): any room or peer entry
whose age exceeds the TTL at a sweep is removed, any younger entry
survives; the sweep notifies observers (flag true) exactly when the
directory changed, and the renderer's structural change detection reports
no change exactly when old and rebuilt directory agree on every key -- so
observers are never notified merely because a timer fired. -/
theorem ttl_sweep_and_change_detection {α : Type} (m : List (String × α × Nat)) (now : Nat)
    (cur : List (String × Announce)) (l : List Announce)
    (hcur : (cur.map Prod.fst).Nodup) :
    PRUNE_TTL_MS = 3 * ANNOUNCE_INTERVAL_MS ∧
    (∀ p ∈ m, (now - p.2.2 > PRUNE_TTL_MS → p ∉ (pruneStep m now).1) ∧
              (now - p.2.2 ≤ PRUNE_TTL_MS → p ∈ (pruneStep m now).1)) ∧
    ((pruneStep m now).2 = false ↔ (pruneStep m now).1 = m) ∧
    (updateRoomsChanged cur (buildRooms l) = false ↔
      ∀ k, cur.lookup k = (buildRooms l).lookup k) := by
  refine ⟨rfl, ?_, ?_, updateRoomsChanged_false_iff cur l hcur⟩
  · intro p hp
    constructor
    · intro hstale hc
      have := (List.mem_filter.mp hc).2
      simp at this
      omega
    · intro hfresh
      refine List.mem_filter.mpr ⟨hp, ?_⟩
      simp
      omega
  · unfold pruneStep
    simp only [List.any_eq_false, List.filter_eq_self]
    constructor
    · intro hall p hp
      have := hall p hp
      simpa using this
    · intro hall p hp
      have := hall p hp
      simpa using this

/-- Witness for C4 at a concrete directory: one stale entry, one fresh. -/
theorem ttl_sweep_and_change_detection_witness :
    PRUNE_TTL_MS = 3 * ANNOUNCE_INTERVAL_MS ∧
    (∀ p ∈ [("a", ((0 : Nat), (0 : Nat))), ("b", ((0 : Nat), (5000 : Nat)))],
      (7000 - p.2.2 > PRUNE_TTL_MS → p ∉ (pruneStep [("a", (0, 0)), ("b", (0, 5000))] 7000).1) ∧
      (7000 - p.2.2 ≤ PRUNE_TTL_MS → p ∈ (pruneStep [("a", (0, 0)), ("b", (0, 5000))] 7000).1)) ∧
    ((pruneStep [("a", ((0 : Nat), (0 : Nat))), ("b", (0, 5000))] 7000).2 = false ↔
      (pruneStep [("a", ((0 : Nat), (0 : Nat))), ("b", (0, 5000))] 7000).1 =
        [("a", (0, 0)), ("b", (0, 5000))]) ∧
    (updateRoomsChanged [] (buildRooms []) = false ↔
      ∀ k, List.lookup k ([] : List (String × Announce)) = (buildRooms []).lookup k) :=
  ttl_sweep_and_change_detection [("a", (0, 0)), ("b", (0, 5000))] 7000 [] [] (by simp)

/-! ## C3: relay welcome ordering -/

theorem mem_jsSet {α : Type} (m : List (String × α)) (k : String) (v : α) (p : String × α)
    (h : p ∈ jsSet m k v) : p ∈ m ∨ p = (k, v) := by
  unfold jsSet at h
  split_ifs at h with hany
  · rcases List.mem_map.mp h with ⟨q, hq, hqe⟩
    by_cases hqk : q.1 = k
    · rw [if_pos hqk] at hqe
      exact Or.inr hqe.symm
    · rw [if_neg hqk] at hqe
      exact Or.inl (hqe ▸ hq)
  · rcases List.mem_append.mp h with hm | hm
    · exact Or.inl hm
    · simp at hm
      exact Or.inr hm

theorem filter_map_update (t : List (String × String)) (c n : String) :
    (t.map (fun p => if p.1 = c then (c, n) else p)).filter (fun p => p.1 ≠ c) =
      t.filter (fun p => p.1 ≠ c) := by
  induction t with
  | nil => rfl
  | cons a t ih =>
    by_cases hac : a.1 = c
    · simp only [List.map_cons, if_pos hac]
      simp [List.filter_cons, hac]
      simpa using ih
    · simp only [List.map_cons, if_neg hac]
      simp [List.filter_cons, hac]
      simpa using ih

theorem filter_jsSet (s : List (String × String)) (c n : String) :
    (jsSet s c n).filter (fun p => p.1 ≠ c) = s.filter (fun p => p.1 ≠ c) := by
  unfold jsSet
  split_ifs with hany
  · exact filter_map_update s c n
  · rw [List.filter_append]
    simp

theorem relay_no_stale_aux (future : List REvent) :
    ∀ (s : List (String × String)) (log : List RelayMsg),
      (joinIds future).Nodup →
      (∀ p ∈ s, p.1 ∉ joinIds future) →
      (∀ y parts, RelayMsg.welcome y parts ∈ log → ∀ x nx, (x, nx) ∈ parts →
        x ∉ joinIds future) →
      (∀ y x n, RelayMsg.peerJoined y x n ∈ log → y ∉ joinIds future) →
      NoStaleJoinNotice log →
      NoStaleJoinNotice (log ++ (relayRun s future).2) := by
  induction future with
  | nil =>
    intro s log _ _ _ _ hns
    simpa [relayRun] using hns
  | cons e rest ih =>
    intro s log hnd hsess hwel hpj hns
    cases e with
    | join c n =>
      -- notation
      have hjids : joinIds (REvent.join c n :: rest) = c :: joinIds rest := rfl
      rw [hjids] at hnd hsess hwel hpj
      have hcnotin : c ∉ joinIds rest := (List.nodup_cons.mp hnd).1
      have hndrest : (joinIds rest).Nodup := (List.nodup_cons.mp hnd).2
      have hrun : (relayRun s (REvent.join c n :: rest)).2 =
          (relayStep s (REvent.join c n)).2 ++
            (relayRun (relayStep s (REvent.join c n)).1 rest).2 := rfl
      rw [hrun, ← List.append_assoc]
      set s' := jsSet s c n with hs'
      set parts := s'.filter (fun p => p.1 ≠ c) with hparts
      have hstep1 : (relayStep s (REvent.join c n)).1 = s' := rfl
      have hstep2 : (relayStep s (REvent.join c n)).2 =
          RelayMsg.welcome c parts :: parts.map (fun p => RelayMsg.peerJoined p.1 c n) := rfl
      rw [hstep1, hstep2]
      -- facts about members of s' and parts
      have hmem_s' : ∀ p ∈ s', p.1 ∉ joinIds rest := by
        intro p hp
        rcases mem_jsSet s c n p hp with hm | he
        · exact fun hc => hsess p hm (List.mem_cons_of_mem c hc)
        · rw [he]
          exact hcnotin
      have hmem_parts : ∀ p ∈ parts, p ∈ s' ∧ p.1 ≠ c := by
        intro p hp
        have := List.mem_filter.mp hp
        refine ⟨this.1, by simpa using this.2⟩
      -- set up the new log
      set M := RelayMsg.welcome c parts :: parts.map (fun p => RelayMsg.peerJoined p.1 c n)
        with hM
      -- membership characterization of M
      have hm_welcome : ∀ y ps, RelayMsg.welcome y ps ∈ M → y = c ∧ ps = parts := by
        intro y ps hy
        rcases List.mem_cons.mp hy with he | hm
        · injection he with e1 e2
          exact ⟨e1, e2⟩
        · exfalso
          rcases List.mem_map.mp hm with ⟨p, _, hpe⟩
          cases hpe
      have hm_pj : ∀ y x n', RelayMsg.peerJoined y x n' ∈ M →
          (∃ p ∈ parts, p.1 = y) ∧ x = c := by
        intro y x n' hy
        rcases List.mem_cons.mp hy with he | hm
        · cases he
        · rcases List.mem_map.mp hm with ⟨p, hp, hpe⟩
          injection hpe.symm with e1 e2 e3
          exact ⟨⟨p, hp, e1.symm⟩, e2⟩
      -- apply IH
      refine ih s' (log ++ M) hndrest hmem_s' ?_ ?_ ?_
      · -- welcome hypothesis for log ++ M
        intro y ps hy x nx hx
        rcases List.mem_append.mp hy with hl | hm
        · exact fun hc => hwel y ps hl x nx hx (List.mem_cons_of_mem c hc)
        · obtain ⟨rfl, rfl⟩ := hm_welcome y ps hm
          have := (hmem_parts (x, nx) hx).1
          exact hmem_s' (x, nx) this
      · -- peerJoined hypothesis for log ++ M
        intro y x n' hy
        rcases List.mem_append.mp hy with hl | hm
        · exact fun hc => hpj y x n' hl (List.mem_cons_of_mem c hc)
        · obtain ⟨⟨p, hp, hpy⟩, _⟩ := hm_pj y x n' hm
          exact hpy ▸ hmem_s' p ((hmem_parts p hp).1)
      · -- NoStale for log ++ M
        intro y ps x nx n' hy hx habs
        rcases List.mem_append.mp hy with hyl | hyM
        · rcases List.mem_append.mp habs with hal | haM
          · exact hns y ps x nx n' hyl hx hal
          · obtain ⟨_, hxc⟩ := hm_pj y x n' haM
            exact hwel y ps hyl x nx hx (by rw [hxc]; exact List.mem_cons_self c _)
        · obtain ⟨rfl, rfl⟩ := hm_welcome y ps hyM
          rcases List.mem_append.mp habs with hal | haM
          · exact hpj y x n' hal (List.mem_cons_self y _)
          · obtain ⟨⟨p, hp, hpy⟩, _⟩ := hm_pj y x n' haM
            exact (hmem_parts p hp).2 hpy
    | leave c =>
      have hjids : joinIds (REvent.leave c :: rest) = joinIds rest := rfl
      rw [hjids] at hnd hsess hwel hpj
      have hrun : (relayRun s (REvent.leave c :: rest)).2 =
          (relayStep s (REvent.leave c)).2 ++
            (relayRun (relayStep s (REvent.leave c)).1 rest).2 := rfl
      rw [hrun, ← List.append_assoc]
      set s' := s.filter (fun p => p.1 ≠ c) with hs'
      have hstep1 : (relayStep s (REvent.leave c)).1 = s' := rfl
      have hstep2 : (relayStep s (REvent.leave c)).2 =
          s'.map (fun p => RelayMsg.peerLeft p.1 c) := rfl
      rw [hstep1, hstep2]
      set M := s'.map (fun p => RelayMsg.peerLeft p.1 c) with hM
      have hm_nowelcome : ∀ y ps, RelayMsg.welcome y ps ∈ M → False := by
        intro y ps hy
        rcases List.mem_map.mp hy with ⟨p, _, hpe⟩
        cases hpe
      have hm_nopj : ∀ y x n', RelayMsg.peerJoined y x n' ∈ M → False := by
        intro y x n' hy
        rcases List.mem_map.mp hy with ⟨p, _, hpe⟩
        cases hpe
      refine ih s' (log ++ M) hnd ?_ ?_ ?_ ?_
      · intro p hp
        exact hsess p (List.mem_of_mem_filter hp)
      · intro y ps hy x nx hx
        rcases List.mem_append.mp hy with hl | hm
        · exact hwel y ps hl x nx hx
        · exact absurd hm (fun hc => hm_nowelcome y ps hc)
      · intro y x n' hy
        rcases List.mem_append.mp hy with hl | hm
        · exact hpj y x n' hl
        · exact absurd hm (fun hc => hm_nopj y x n' hc)
      · intro y ps x nx n' hy hx habs
        rcases List.mem_append.mp hy with hyl | hyM
        · rcases List.mem_append.mp habs with hal | haM
          · exact hns y ps x nx n' hyl hx hal
          · exact hm_nopj y x n' haM
        · exact hm_nowelcome y ps hyM

/-- C3 counterexample: client `x` joins, `y` joins (its welcome lists
`x`), `x` leaves and rejoins; `y` then receives `peer-joined` for `x`,
which was already a member when `y`'s welcome was generated -- refuting
the claim's consequence clause as stated. -/
theorem rejoin_breaks_welcome_ordering : ¬ relayConsequenceProp := by
  intro h
  have hmain := h [REvent.join "x" "nx", REvent.join "y" "ny", REvent.leave "x",
    REvent.join "x" "nx"]
  exact hmain "y" [("x", "nx")] "x" "nx" "nx" (by decide) (by decide) (by decide)

/-- C3 amended: for every join the welcome is computed from the membership
snapshot excluding the joining client and listing all other sessions, and
is sent strictly before the peer-joined broadcast of that join (the
equation on `relayStep`); and over any trace in which no client id joins
twice (no duplicate join and no leave-and-rejoin), no client receives a
peer-joined notice for a peer its own welcome already listed. -/
theorem welcome_before_peer_joined (s0 : List (String × String)) (c n : String)
    (tr : List REvent) (hnd : (joinIds tr).Nodup) :
    (relayStep s0 (REvent.join c n)).2 =
      RelayMsg.welcome c (s0.filter (fun p => p.1 ≠ c)) ::
        (s0.filter (fun p => p.1 ≠ c)).map (fun p => RelayMsg.peerJoined p.1 c n) ∧
    NoStaleJoinNotice (relayRun [] tr).2 := by
  constructor
  · show (RelayMsg.welcome c ((jsSet s0 c n).filter (fun p => p.1 ≠ c)) ::
        ((jsSet s0 c n).filter (fun p => p.1 ≠ c)).map (fun p => RelayMsg.peerJoined p.1 c n)) = _
    rw [filter_jsSet]
  · have := relay_no_stale_aux tr [] [] hnd (by intro p hp; cases hp)
      (by intro y parts hy; cases hy) (by intro y x n' hy; cases hy)
      (by intro y parts x nx n' hy; cases hy)
    simpa using this

/-- Witness for C3 at a concrete state and nodup trace. -/
theorem welcome_before_peer_joined_witness :
    (relayStep [("x", "nx")] (REvent.join "y" "ny")).2 =
      RelayMsg.welcome "y" ([("x", "nx")].filter (fun p => p.1 ≠ "y")) ::
        ([("x", "nx")].filter (fun p => p.1 ≠ "y")).map
          (fun p => RelayMsg.peerJoined p.1 "y" "ny") ∧
    NoStaleJoinNotice (relayRun []
      [REvent.join "x" "nx", REvent.join "y" "ny", REvent.leave "x"]).2 :=
  welcome_before_peer_joined [("x", "nx")] "y" "ny"
    [REvent.join "x" "nx", REvent.join "y" "ny", REvent.leave "x"] (by decide)

/-! ## C2 and C6: channel crypto -/

theorem ctrXor_length (f : Nat → Nat) (i : Nat) (l : List Nat) :
    (ctrXor f i l).length = l.length := by
  induction l generalizing i with
  | nil => rfl
  | cons b rest ih =>
    simp [ctrXor, ih]

theorem ctrXor_ctrXor (f : Nat → Nat) (i : Nat) (l : List Nat) :
    ctrXor f i (ctrXor f i l) = l := by
  induction l generalizing i with
  | nil => rfl
  | cons b rest ih =>
    simp only [ctrXor]
    rw [Nat.xor_assoc, Nat.xor_self, Nat.xor_zero, ih]

theorem ctrXor_lt (f : Nat → Nat) (i : Nat) (l : List Nat) (h : ∀ b ∈ l, b < 256) :
    ∀ b ∈ ctrXor f i l, b < 256 := by
  induction l generalizing i with
  | nil => intro b hb; cases hb
  | cons a rest ih =>
    intro b hb
    rcases List.mem_cons.mp hb with rfl | hb'
    · have h1 : a < 2 ^ 8 := h a (List.mem_cons_self a rest)
      have h2 : f i % 256 < 2 ^ 8 := by
        have := Nat.mod_lt (f i) (show 0 < 256 by norm_num)
        simpa using this
      have := Nat.xor_lt_two_pow h1 h2
      simpa using this
    · exact ih (i + 1) (fun c hc => h c (List.mem_cons_of_mem a hc)) b hb'

theorem gcm_roundtrip (ks : List Nat → Nat → Nat) (tagFn : List Nat → List Nat → List Nat)
    (iv pt : List Nat) (h16 : ∀ iv' ct, (tagFn iv' ct).length = 16) :
    gcmDecrypt ks tagFn iv (gcmEncrypt ks tagFn iv pt) = some pt := by
  unfold gcmEncrypt gcmDecrypt
  dsimp only
  have hctlen : (ctrXor (ks iv) 0 pt).length = pt.length := ctrXor_length _ _ _
  have hlen : (ctrXor (ks iv) 0 pt ++ tagFn iv (ctrXor (ks iv) 0 pt)).length =
      pt.length + 16 := by
    rw [List.length_append, hctlen, h16]
  rw [if_neg (by omega)]
  have hsub : (ctrXor (ks iv) 0 pt ++ tagFn iv (ctrXor (ks iv) 0 pt)).length - 16 =
      (ctrXor (ks iv) 0 pt).length := by omega
  rw [hsub, List.take_left, List.drop_left, if_pos rfl, ctrXor_ctrXor]

theorem encryptBinary_decryptBinary (ks : List Nat → Nat → Nat)
    (tagFn : List Nat → List Nat → List Nat) (iv m : List Nat)
    (hiv : iv.length = 12) (h16 : ∀ iv' ct, (tagFn iv' ct).length = 16) :
    decryptBinary ks tagFn (encryptBinary ks tagFn iv m) = some m := by
  unfold encryptBinary decryptBinary
  have ht : (iv ++ gcmEncrypt ks tagFn iv m).take ivLength = iv := by
    rw [show ivLength = iv.length from hiv ▸ rfl]
    exact List.take_left iv _
  have hd : (iv ++ gcmEncrypt ks tagFn iv m).drop ivLength = gcmEncrypt ks tagFn iv m := by
    rw [show ivLength = iv.length from hiv ▸ rfl]
    exact List.drop_left iv _
  rw [ht, hd]
  exact gcm_roundtrip ks tagFn iv m h16

theorem charSextet_sextetChar (s : Nat) (h : s < 64) :
    charSextet (sextetChar s) = some s := by
  unfold sextetChar charSextet
  split_ifs <;> (congr 1; omega)

theorem sextetChar_ne_pad (s : Nat) (h : s < 64) : sextetChar s ≠ 61 := by
  unfold sextetChar
  split_ifs <;> omega

theorem base64_roundtrip (l : List Nat) (h : ∀ b ∈ l, b < 256) :
    base64Decode (base64Encode l) = some l := by
  induction l using base64Encode.induct with
  | case1 => rfl
  | case2 a =>
    have ha : a < 256 := h a (by simp)
    simp only [base64Encode, base64Decode]
    rw [charSextet_sextetChar _ (by omega), charSextet_sextetChar _ (by omega)]
    dsimp only
    simp only [if_true, and_self, and_true, true_and, Option.some.injEq, List.cons.injEq]
    omega
  | case3 a b =>
    have ha : a < 256 := h a (by simp)
    have hb : b < 256 := h b (by simp)
    simp only [base64Encode, base64Decode]
    rw [charSextet_sextetChar _ (by omega), charSextet_sextetChar _ (by omega)]
    dsimp only
    rw [if_neg (sextetChar_ne_pad _ (by omega))]
    rw [charSextet_sextetChar _ (by omega)]
    dsimp only
    simp only [if_true, and_self, and_true, true_and, Option.some.injEq, List.cons.injEq]
    omega
  | case4 a b c rest ih =>
    have ha : a < 256 := h a (by simp)
    have hb : b < 256 := h b (by simp)
    have hc : c < 256 := h c (by simp)
    have hrest : ∀ x ∈ rest, x < 256 := by
      intro x hx
      exact h x (by simp [hx])
    simp only [base64Encode, base64Decode]
    rw [charSextet_sextetChar _ (by omega), charSextet_sextetChar _ (by omega)]
    dsimp only
    rw [if_neg (sextetChar_ne_pad _ (by omega))]
    rw [charSextet_sextetChar _ (by omega)]
    dsimp only
    rw [if_neg (sextetChar_ne_pad _ (by omega))]
    rw [charSextet_sextetChar _ (by omega)]
    rw [ih hrest]
    dsimp only
    simp only [if_true, and_self, and_true, true_and, Option.some.injEq, List.cons.injEq]
    omega

theorem utf8Decode_cons (b : Nat) (rest : List Nat) :
    utf8Decode (b :: rest) =
      match utf8DecodeChar b rest with
      | none => none
      | some p => (utf8Decode p.2).map (fun l => p.1 :: l) := by
  rw [utf8Decode.eq_def]
  dsimp only
  cases hres : utf8DecodeChar b rest with
  | none => rfl
  | some p => rfl

theorem utf8_roundtrip_char (c : Nat) (h : ValidScalar c) (es : List Nat) :
    utf8Decode (utf8EncodeChar c ++ es) = (utf8Decode es).map (fun l => c :: l) := by
  obtain ⟨h1, h2⟩ := h
  unfold utf8EncodeChar
  split_ifs with hA hB hC
  · have hchar : utf8DecodeChar c es = some (c, es) := by
      unfold utf8DecodeChar
      rw [if_pos hA]
    show utf8Decode (c :: es) = _
    rw [utf8Decode_cons, hchar]
  · have hchar : utf8DecodeChar (192 + c / 64) ((128 + c % 64) :: es) = some (c, es) := by
      unfold utf8DecodeChar
      rw [if_neg (by omega), if_neg (by omega), if_pos (by omega)]
      dsimp only
      rw [if_pos (by constructor <;> omega)]
      simp only [Option.some.injEq, Prod.mk.injEq]
      exact ⟨by omega, trivial⟩
    show utf8Decode ((192 + c / 64) :: (128 + c % 64) :: es) = _
    rw [utf8Decode_cons, hchar]
  · have hchar : utf8DecodeChar (224 + c / 4096)
        ((128 + c / 64 % 64) :: (128 + c % 64) :: es) = some (c, es) := by
      unfold utf8DecodeChar
      rw [if_neg (by omega), if_neg (by omega), if_neg (by omega), if_pos (by omega)]
      dsimp only
      rw [if_pos (by refine ⟨⟨?_, ?_⟩, ?_, ?_⟩ <;> omega)]
      simp only [Option.some.injEq, Prod.mk.injEq]
      exact ⟨by omega, trivial⟩
    show utf8Decode ((224 + c / 4096) :: (128 + c / 64 % 64) :: (128 + c % 64) :: es) = _
    rw [utf8Decode_cons, hchar]
  · have hchar : utf8DecodeChar (240 + c / 262144)
        ((128 + c / 4096 % 64) :: (128 + c / 64 % 64) :: (128 + c % 64) :: es) =
          some (c, es) := by
      unfold utf8DecodeChar
      rw [if_neg (by omega), if_neg (by omega), if_neg (by omega), if_neg (by omega),
        if_pos (by omega)]
      dsimp only
      rw [if_pos (by refine ⟨⟨?_, ?_⟩, ⟨?_, ?_⟩, ?_, ?_⟩ <;> omega)]
      simp only [Option.some.injEq, Prod.mk.injEq]
      exact ⟨by omega, trivial⟩
    show utf8Decode
        ((240 + c / 262144) :: (128 + c / 4096 % 64) :: (128 + c / 64 % 64) :: (128 + c % 64) :: es) = _
    rw [utf8Decode_cons, hchar]

theorem utf8Decode_nil : utf8Decode [] = some [] := by
  rw [utf8Decode.eq_def]

theorem utf8_roundtrip (l : List Nat) (h : ∀ c ∈ l, ValidScalar c) :
    utf8Decode (utf8Encode l) = some l := by
  induction l with
  | nil => exact utf8Decode_nil
  | cons c t ih =>
    have hc : ValidScalar c := h c (List.mem_cons_self c t)
    have ht : ∀ x ∈ t, ValidScalar x := fun x hx => h x (List.mem_cons_of_mem c hx)
    have henc : utf8Encode (c :: t) = utf8EncodeChar c ++ utf8Encode t := by
      simp [utf8Encode]
    rw [henc, utf8_roundtrip_char c hc, ih ht]
    rfl

theorem utf8EncodeChar_lt (c : Nat) (h : ValidScalar c) :
    ∀ b ∈ utf8EncodeChar c, b < 256 := by
  obtain ⟨h1, _⟩ := h
  unfold utf8EncodeChar
  split_ifs with hA hB hC
  · intro b hb
    simp at hb
    omega
  · intro b hb
    simp at hb
    rcases hb with rfl | rfl <;> omega
  · intro b hb
    simp at hb
    rcases hb with rfl | rfl | rfl <;> omega
  · intro b hb
    simp at hb
    rcases hb with rfl | rfl | rfl | rfl <;> omega

theorem utf8Encode_lt (l : List Nat) (h : ∀ c ∈ l, ValidScalar c) :
    ∀ b ∈ utf8Encode l, b < 256 := by
  intro b hb
  unfold utf8Encode at hb
  rcases List.mem_flatten.mp hb with ⟨chunk, hchunk, hbc⟩
  rcases List.mem_map.mp hchunk with ⟨c, hcl, rfl⟩
  exact utf8EncodeChar_lt c (h c hcl) b hbc

theorem combined_bytes_lt (ks : List Nat → Nat → Nat)
    (tagFn : List Nat → List Nat → List Nat) (iv mstr : List Nat)
    (hivb : ∀ b ∈ iv, b < 256)
    (htagb : ∀ iv' ct, ∀ b ∈ tagFn iv' ct, b < 256)
    (hstr : ∀ c ∈ mstr, ValidScalar c) :
    ∀ b ∈ iv ++ gcmEncrypt ks tagFn iv (utf8Encode mstr), b < 256 := by
  intro b hb
  rcases List.mem_append.mp hb with h | h
  · exact hivb b h
  · unfold gcmEncrypt at h
    dsimp only at h
    rcases List.mem_append.mp h with h | h
    · exact ctrXor_lt _ _ _ (utf8Encode_lt mstr hstr) b h
    · exact htagb _ _ b h

/-- C2: under one room-derived key (an arbitrary keystream `ks` and tag
function `tagFn`, covering real AES-256-GCM), decrypting the encryption of
any plaintext returns it exactly: for arbitrary byte sequences through the
binary frame API `encryptBinary`/`decryptBinary`, and for arbitrary
strings of unicode scalar values through the envelope API
`encrypt`/`decrypt` (UTF-8 plus base64 framing included). The statement
holds for every length, in particular 0, 1 and above 64 KB. -/
theorem crypto_roundtrip (ks : List Nat → Nat → Nat)
    (tagFn : List Nat → List Nat → List Nat) (iv m mstr : List Nat)
    (hiv : iv.length = 12)
    (hivb : ∀ b ∈ iv, b < 256)
    (htag16 : ∀ iv' ct, (tagFn iv' ct).length = 16)
    (htagb : ∀ iv' ct, ∀ b ∈ tagFn iv' ct, b < 256)
    (hstr : ∀ c ∈ mstr, ValidScalar c) :
    decryptBinary ks tagFn (encryptBinary ks tagFn iv m) = some m ∧
    decryptText ks tagFn (encryptText ks tagFn iv mstr) = some mstr := by
  constructor
  · exact encryptBinary_decryptBinary ks tagFn iv m hiv htag16
  · unfold encryptText decryptText
    rw [base64_roundtrip _ (combined_bytes_lt ks tagFn iv mstr hivb htagb hstr)]
    dsimp only
    have ht : (iv ++ gcmEncrypt ks tagFn iv (utf8Encode mstr)).take ivLength = iv := by
      rw [show ivLength = iv.length from hiv ▸ rfl]
      exact List.take_left iv _
    have hd : (iv ++ gcmEncrypt ks tagFn iv (utf8Encode mstr)).drop ivLength =
        gcmEncrypt ks tagFn iv (utf8Encode mstr) := by
      rw [show ivLength = iv.length from hiv ▸ rfl]
      exact List.drop_left iv _
    rw [ht, hd, gcm_roundtrip ks tagFn iv _ htag16]
    dsimp only
    exact utf8_roundtrip mstr hstr

/-- Witness for C2 at a concrete key model, IV and plaintexts (the text
one exercising a multi-byte scalar). -/
theorem crypto_roundtrip_witness :
    decryptBinary (fun _ _ => 0) (fun _ _ => List.replicate 16 0)
        (encryptBinary (fun _ _ => 0) (fun _ _ => List.replicate 16 0)
          (List.replicate 12 0) [7, 8]) = some [7, 8] ∧
    decryptText (fun _ _ => 0) (fun _ _ => List.replicate 16 0)
        (encryptText (fun _ _ => 0) (fun _ _ => List.replicate 16 0)
          (List.replicate 12 0) [104, 955299]) = some [104, 955299] :=
  crypto_roundtrip (fun _ _ => 0) (fun _ _ => List.replicate 16 0)
    (List.replicate 12 0) [7, 8] [104, 955299]
    (by simp)
    (by intro b hb; rw [List.eq_of_mem_replicate hb]; omega)
    (fun _ _ => by simp)
    (by intro iv' ct b hb; rw [List.eq_of_mem_replicate hb]; omega)
    (by decide)

/-- C6: the per-call 96-bit nonce drawn by `crypto.getRandomValues` (the
explicit `iv` argument, never cached in any state) is prepended to the
output of `encryptBinary`, and two calls that draw distinct nonces produce
different ciphertexts for the same plaintext under the same key, for both
the binary frame API and the string envelope API. -/
theorem fresh_nonce_distinct_ciphertexts (ks : List Nat → Nat → Nat)
    (tagFn : List Nat → List Nat → List Nat) (iv1 iv2 m mstr : List Nat)
    (h1 : iv1.length = 12) (h2 : iv2.length = 12) (hne : iv1 ≠ iv2)
    (h1b : ∀ b ∈ iv1, b < 256) (h2b : ∀ b ∈ iv2, b < 256)
    (htagb : ∀ iv' ct, ∀ b ∈ tagFn iv' ct, b < 256)
    (hstr : ∀ c ∈ mstr, ValidScalar c) :
    (encryptBinary ks tagFn iv1 m).take 12 = iv1 ∧
    encryptBinary ks tagFn iv1 m ≠ encryptBinary ks tagFn iv2 m ∧
    encryptText ks tagFn iv1 mstr ≠ encryptText ks tagFn iv2 mstr := by
  have htake : ∀ iv : List Nat, iv.length = 12 →
      (encryptBinary ks tagFn iv m).take 12 = iv := by
    intro iv hiv
    unfold encryptBinary
    rw [← hiv]
    exact List.take_left iv _
  refine ⟨htake iv1 h1, ?_, ?_⟩
  · intro heq
    exact hne (by rw [← htake iv1 h1, heq, htake iv2 h2])
  · intro heq
    have hd1 := base64_roundtrip (iv1 ++ gcmEncrypt ks tagFn iv1 (utf8Encode mstr))
      (combined_bytes_lt ks tagFn iv1 mstr h1b htagb hstr)
    have hd2 := base64_roundtrip (iv2 ++ gcmEncrypt ks tagFn iv2 (utf8Encode mstr))
      (combined_bytes_lt ks tagFn iv2 mstr h2b htagb hstr)
    unfold encryptText at heq
    rw [heq] at hd1
    rw [hd2] at hd1
    have hcomb := Option.some.inj hd1
    have t1 : (iv1 ++ gcmEncrypt ks tagFn iv1 (utf8Encode mstr)).take 12 = iv1 := by
      rw [← h1]
      exact List.take_left iv1 _
    have t2 : (iv2 ++ gcmEncrypt ks tagFn iv2 (utf8Encode mstr)).take 12 = iv2 := by
      rw [← h2]
      exact List.take_left iv2 _
    exact hne (by rw [← t1, ← hcomb, t2])

/-- Witness for C6 at two concrete distinct IVs. -/
theorem fresh_nonce_distinct_ciphertexts_witness :
    (encryptBinary (fun _ _ => 0) (fun _ _ => List.replicate 16 0)
        (List.replicate 12 0) [7]).take 12 = List.replicate 12 0 ∧
    encryptBinary (fun _ _ => 0) (fun _ _ => List.replicate 16 0)
        (List.replicate 12 0) [7] ≠
      encryptBinary (fun _ _ => 0) (fun _ _ => List.replicate 16 0)
        (List.replicate 12 1) [7] ∧
    encryptText (fun _ _ => 0) (fun _ _ => List.replicate 16 0)
        (List.replicate 12 0) [104] ≠
      encryptText (fun _ _ => 0) (fun _ _ => List.replicate 16 0)
        (List.replicate 12 1) [104] :=
  fresh_nonce_distinct_ciphertexts (fun _ _ => 0) (fun _ _ => List.replicate 16 0)
    (List.replicate 12 0) (List.replicate 12 1) [7] [104]
    (by simp) (by simp) (by decide)
    (by intro b hb; rw [List.eq_of_mem_replicate hb]; omega)
    (by intro b hb; rw [List.eq_of_mem_replicate hb]; omega)
    (by intro iv' ct b hb; rw [List.eq_of_mem_replicate hb]; omega)
    (by decide)

end LVM
